import Mathlib

/-!
Verification development for the Zag latency-analysis scripts
(`heap_latency.py`, `perf/heap_allocator/heap_latency.py`,
`perf/buddy_allocator/buddy_latency.py`).

The scripts are pure batch statistics over a parsed CSV table.  We give a
shallow embedding of the statistics core:

* raw CSV cell values are modelled by `PyVal` (string / int / finite float /
  float NaN / bool / Python None); finite floats are modelled exactly as
  rationals, and the float NaN that pandas produces for missing or
  unparseable cells is the distinguished constructor `PyVal.nan`;
* a numeric series after parsing is a `List (Option ℚ)`, where `Option.none`
  stands for a NaN entry and `some q` for the finite value `q`
  (the model covers finite data; infinities are outside its scope);
* pandas/numpy numeric kernels (`Series.quantile` with the default linear
  method, `Series.mean`, `Series.std(ddof=1)`, `np.sort`, `np.linspace`,
  `DataFrame.corr`) are embedded as Lean functions on those models,
  following the library algorithms.
-/

namespace Zag

/-- Model of a raw Python cell value as seen by the normalization code:
strings, ints, finite floats (as exact rationals), the float NaN produced by
pandas for empty/unparseable cells, booleans, and Python None. -/
inductive PyVal where
  | str (s : String)
  | int (n : ℤ)
  | float (q : ℚ)
  | nan
  | bool (b : Bool)
  | none
deriving DecidableEq

/-- Whether a `PyVal` is a Python string (the `isinstance(x, str)` test). -/
def PyVal.isStr : PyVal → Bool
  | .str _ => true
  | _ => false

/-- Python native truthiness `bool(x)`: a string is truthy iff non-empty, a
number iff non-zero, and float NaN is truthy; None is falsy. -/
def pyTruthy : PyVal → Bool
  | .str s => s ≠ ""
  | .int n => n ≠ 0
  | .float q => q ≠ 0
  | .nan => true
  | .bool b => b
  | .none => false

/-- The characters stripped by Python `str.strip()` (ASCII whitespace). -/
def pyIsSpace (c : Char) : Bool :=
  c = ' ' ∨ c = '\t' ∨ c = '\n' ∨ c = '\r' ∨ c = '\x0b' ∨ c = '\x0c'

/-- Python `str.strip()`: drop leading and trailing whitespace characters. -/
def pyStrip (s : String) : String :=
  String.mk (((s.toList.dropWhile pyIsSpace).reverse.dropWhile pyIsSpace).reverse)

/-- Python `str.lower()` (ASCII case folding suffices for this data). -/
def pyLower (s : String) : String :=
  String.mk (s.toList.map Char.toLower)

/-- Embedding of `parse_bool` from `read_data`: a string is true iff its
stripped, lowercased form is one of "1", "true", "t", "yes", "y"; any
non-string value goes through native truthiness `bool(x)`. -/
def parseBool (x : PyVal) : Bool :=
  match x with
  | .str s => (pyLower (pyStrip s)) ∈ (["1", "true", "t", "yes", "y"] : List String)
  | v => pyTruthy v

/-- Parse an unsigned run of decimal digits. -/
def digitsVal (cs : List Char) : Option ℕ :=
  if cs = [] ∨ ¬ cs.all Char.isDigit then Option.none
  else some (cs.foldl (fun a c => a * 10 + (c.toNat - 48)) 0)

/-- Parse an optionally signed decimal literal (integer part, optional
fractional part) into an exact rational; anything else is unparseable.
This models the grammar of the numeric cells the scripts consume (plain
decimal numbers); a cell outside it coerces to NaN. -/
def parseDecimal (s : String) : Option ℚ :=
  let t := (pyStrip s).toList
  let (sign, body) :=
    match t with
    | '-' :: rest => ((-1 : ℚ), rest)
    | '+' :: rest => ((1 : ℚ), rest)
    | _ => ((1 : ℚ), t)
  match body.splitOn '.' with
  | [ip] =>
      (digitsVal ip).map (fun n => sign * n)
  | [ip, fp] =>
      if ip = [] ∧ fp = [] then Option.none
      else if (ip = [] ∨ (digitsVal ip).isSome) ∧ (fp = [] ∨ (digitsVal fp).isSome) then
        some (sign * (((digitsVal ip).getD 0 : ℚ) +
          ((digitsVal fp).getD 0 : ℚ) / (10 : ℚ) ^ fp.length))
      else Option.none
  | _ => Option.none

/-- Embedding of `pd.to_numeric(x, errors='coerce')` on one cell:
numbers pass through, booleans become 0/1, strings are parsed as decimal
literals, and everything unparseable (or missing) becomes NaN (`none`). -/
def toNumeric (x : PyVal) : Option ℚ :=
  match x with
  | .str s => parseDecimal s
  | .int n => some (n : ℚ)
  | .float q => some q
  | .nan => Option.none
  | .bool b => some (if b then 1 else 0)
  | .none => Option.none

/-- Embedding of `Series.fillna(d)` on one cell: replace NaN by `d`. -/
def pdFillna (v : Option ℚ) (d : ℚ) : ℚ :=
  v.getD d

/-- Truncation toward zero, the conversion `astype(int)` applies to a
finite float. -/
def truncQ (q : ℚ) : ℤ :=
  if 0 ≤ q then ⌊q⌋ else ⌈q⌉

/-- Embedding of the depth / split_count normalization pipeline in
`read_data`: `pd.to_numeric(col, errors='coerce').fillna(-1).astype(int)`. -/
def normDepth (x : PyVal) : ℤ :=
  truncQ (pdFillna (toNumeric x) (-1))

/-- Ascending sort of a rational list, the model of `np.sort` /
`sort_values` on a finite series (any stable comparison sort models the
library call; insertion sort keeps the definition structurally recursive). -/
def sortQ (s : List ℚ) : List ℚ :=
  s.insertionSort (· ≤ ·)

/-- Minimum of a series, the model of `Series.min()` (only used on
non-empty series; the `[]` value is irrelevant). -/
def listMin : List ℚ → ℚ
  | [] => 0
  | x :: xs => xs.foldl min x

/-- Maximum of a series, the model of `Series.max()`. -/
def listMax : List ℚ → ℚ
  | [] => 0
  | x :: xs => xs.foldl max x

/-- Arithmetic mean of a series, the model of `Series.mean()`. -/
def meanQ (s : List ℚ) : ℚ :=
  s.sum / s.length

/-- The interpolation kernel of numpy's percentile `linear` method
(`_lerp`): for `t ≥ 1/2` it computes `b - (b - a)(1 - t)`, otherwise
`a + (b - a) t` (the two branches agree over exact rationals). -/
def npLerp (a b t : ℚ) : ℚ :=
  if 1/2 ≤ t then b - (b - a) * (1 - t) else a + (b - a) * t

/-- Interpolated value of a sorted list at virtual index `h`: numpy's
percentile interpolates between the order statistics at `⌊h⌋` and `⌈h⌉`
with weight `h - ⌊h⌋`. -/
def interpVal (v : List ℚ) (h : ℚ) : ℚ :=
  npLerp (v.getD (⌊h⌋).toNat 0) (v.getD (⌈h⌉).toNat 0) (h - ((⌊h⌋).toNat : ℚ))

/-- Quantile of an already-sorted list by numpy's `linear` method: the
virtual index is `h = q·(n-1)`. -/
def quantileSorted (v : List ℚ) (q : ℚ) : ℚ :=
  interpVal v (q * ((v.length : ℚ) - 1))

/-- Embedding of `Series.quantile(q)` (default linear interpolation) on a
series of non-missing values. -/
def seriesQuantile (s : List ℚ) (q : ℚ) : ℚ :=
  quantileSorted (sortQ s) q

/-- Comparison definition written from the spec's words, for the refinement
claim about the percentile method: linear interpolation between consecutive
order statistics at fractional rank `q·(n-1)`, i.e. with `h = q·(n-1)` and
`k = ⌊h⌋` the value `v_k + (h - k)·(v_{k+1} - v_k)` (reading `v_{k+1}` as
the last element when `k` is already the last index). -/
def specLinearQuantile (s : List ℚ) (q : ℚ) : ℚ :=
  let v := sortQ s
  let h : ℚ := q * ((v.length : ℚ) - 1)
  let k : ℕ := (⌊h⌋).toNat
  v.getD k 0 + (h - (k : ℚ)) * (v.getD (Nat.min (k + 1) (v.length - 1)) 0 - v.getD k 0)

/-- Sample variance with Bessel's correction (divisor `n - 1`), the radicand
of `Series.std(ddof=1)`, valued in ℝ because the standard deviation itself
is a square root. -/
noncomputable def besselVarR (s : List ℚ) : ℝ :=
  ((s.map (fun x : ℚ => ((x : ℝ) - ((meanQ s : ℚ) : ℝ)) ^ 2)).sum) /
    ((s.length : ℝ) - 1)

/-- One row of the exported latency summary (`SummaryRecord`): statistic
fields are `Option` valued with `Option.none` standing for NaN; `std` lives
in ℝ since it is a float square root in the source. -/
structure SummaryRecord where
  p500 : Option ℚ
  p900 : Option ℚ
  p950 : Option ℚ
  p990 : Option ℚ
  p999 : Option ℚ
  min : Option ℚ
  max : Option ℚ
  mean : Option ℚ
  std : Option ℝ
  count : ℕ

/-- Embedding of `percentiles` (buddy / perf-heap variant, which the root
script matches after its callers apply `.dropna()`): drop NaN entries; on an
empty result emit NaN percentiles / min / max / mean, `std = 0.0` and
`count = 0`; otherwise compute the five quantiles, min, max, mean, the
`ddof=1` standard deviation (0.0 when a single observation), and the count. -/
noncomputable def percentiles (series : List (Option ℚ)) : SummaryRecord :=
  match series.filterMap id with
  | [] =>
    { p500 := Option.none, p900 := Option.none, p950 := Option.none
      p990 := Option.none, p999 := Option.none
      min := Option.none, max := Option.none, mean := Option.none
      std := some 0, count := 0 }
  | x :: xs =>
    let s := x :: xs
    { p500 := some (seriesQuantile s (1/2))
      p900 := some (seriesQuantile s (9/10))
      p950 := some (seriesQuantile s (95/100))
      p990 := some (seriesQuantile s (99/100))
      p999 := some (seriesQuantile s (999/1000))
      min := some (listMin s), max := some (listMax s)
      mean := some (meanQ s)
      std := some (if 1 < s.length then Real.sqrt (besselVarR s) else 0)
      count := s.length }

/-- Embedding of `np.linspace(0, 1, n, endpoint=True)` over exact
rationals: empty for `n = 0`, the single point `0` for `n = 1`, and
`k / (n-1)` for `k = 0, …, n-1` otherwise. -/
def linspace01 (n : ℕ) : List ℚ :=
  if n = 0 then []
  else if n = 1 then [0]
  else (List.range n).map (fun k : ℕ => (k : ℚ) / ((n : ℚ) - 1))

/-- Embedding of `ecdf`: sort the non-missing values ascending and pair
them with `linspace(0, 1, n)` (the source returns an empty probability
array for an empty series, which `linspace01 0 = []` matches). -/
def ecdf (series : List (Option ℚ)) : List ℚ × List ℚ :=
  let vals := sortQ (series.filterMap id)
  (vals, linspace01 vals.length)

/-- Embedding of the zoom step of `do_distribution_plots`: on an empty
(dropna'd) series return early with nothing; otherwise compute
`p_zoom = s.quantile(zoom_q)`, keep the values `≤ p_zoom` in order, and set
the presentation bound `xmax = p_zoom * 1.001`.  In this finite-rational
model `np.isfinite(p_zoom)` always holds, so the `xmax = None` branch of the
source is unreachable. -/
def doZoomPlots (series : List (Option ℚ)) (zoomQ : ℚ) :
    Option (List ℚ × Option ℚ) :=
  match series.filterMap id with
  | [] => Option.none
  | x :: xs =>
    let s := x :: xs
    let pZoom := seriesQuantile s zoomQ
    some (s.filter (fun y => y ≤ pZoom), some (pZoom * (1001/1000)))

/-- Pearson correlation of a list of points, represented by the signed
square `r·|r|` to stay in exact rationals (`r ↦ r·|r|` is strictly monotone,
so two correlations are equal iff their signed squares are).  Returns
`Option.none` (NaN) when either column is constant (zero variance) or the
list is empty, matching the float NaN that `DataFrame.corr` produces there. -/
def pearson2 (pts : List (ℚ × ℚ)) : Option ℚ :=
  let n : ℚ := pts.length
  let xm := (pts.map Prod.fst).sum / n
  let ym := (pts.map Prod.snd).sum / n
  let cov : ℚ := (pts.map (fun p => (p.1 - xm) * (p.2 - ym))).sum
  let vx : ℚ := (pts.map (fun p => (p.1 - xm) ^ 2)).sum
  let vy : ℚ := (pts.map (fun p => (p.2 - ym) ^ 2)).sum
  if vx * vy = 0 then Option.none else some (cov * |cov| / (vx * vy))

/-- The rows `DataFrame.corr` actually uses for the pair of columns
`(i, j)`: exactly the rows where those two entries are both non-missing
(pandas `nancorr` masks NaN per pair of columns). -/
def pairRows (rows : List (Fin 3 → Option ℚ)) (i j : Fin 3) : List (ℚ × ℚ) :=
  rows.filterMap (fun r =>
    match r i, r j with
    | some a, some b => some (a, b)
    | _, _ => Option.none)

/-- Embedding of one entry of `heatmap_corr`'s `df.corr(numeric_only=True)`
matrix, for a three-column numeric selection (the buddy script selects
exactly `['size', 'splits', 'cycles']`): the Pearson coefficient (as its
signed square) over the pairwise-valid rows. -/
def dfCorrEntry (rows : List (Fin 3 → Option ℚ)) (i j : Fin 3) : Option ℚ :=
  pearson2 (pairRows rows i j)

/-- The complete-case rows of a table: rows in which every selected column
is non-missing. -/
def completeRows (rows : List (Fin 3 → Option ℚ)) : List (Fin 3 → ℚ) :=
  rows.filterMap (fun r =>
    match r 0, r 1, r 2 with
    | some a, some b, some c => some ![a, b, c]
    | _, _, _ => Option.none)

/-- Comparison definition written from the spec's words, for the claim that
the correlation matrix is computed by row-wise complete-case analysis:
every coefficient is taken over the same set of rows, namely those in which
all selected fields are simultaneously non-missing. -/
def specCompleteCaseCorr (rows : List (Fin 3 → Option ℚ)) (i j : Fin 3) : Option ℚ :=
  pearson2 ((completeRows rows).map (fun r => (r i, r j)))

/-! Helper lemmas about the sorting / aggregation primitives. -/

lemma sortQ_sorted (s : List ℚ) : List.Sorted (· ≤ ·) (sortQ s) :=
  List.sorted_insertionSort _ s

lemma sortQ_perm (s : List ℚ) : (sortQ s).Perm s :=
  List.perm_insertionSort _ s

lemma sortQ_length (s : List ℚ) : (sortQ s).length = s.length :=
  (sortQ_perm s).length_eq

lemma sortQ_mem {s : List ℚ} {x : ℚ} (hx : x ∈ sortQ s) : x ∈ s :=
  (sortQ_perm s).mem_iff.mp hx

lemma foldl_min_le_init (l : List ℚ) (a : ℚ) : l.foldl min a ≤ a := by
  induction l generalizing a with
  | nil => simp
  | cons x xs ih => exact le_trans (ih (min a x)) (min_le_left a x)

lemma foldl_min_le_mem (l : List ℚ) (a x : ℚ) (hx : x ∈ l) : l.foldl min a ≤ x := by
  induction l generalizing a with
  | nil => cases hx
  | cons y ys ih =>
    rcases List.mem_cons.mp hx with h | h
    · subst h
      exact le_trans (foldl_min_le_init ys (min a x)) (min_le_right a x)
    · exact ih (min a y) h

lemma le_foldl_max_init (l : List ℚ) (a : ℚ) : a ≤ l.foldl max a := by
  induction l generalizing a with
  | nil => simp
  | cons x xs ih => exact le_trans (le_max_left a x) (ih (max a x))

lemma le_foldl_max_mem (l : List ℚ) (a x : ℚ) (hx : x ∈ l) : x ≤ l.foldl max a := by
  induction l generalizing a with
  | nil => cases hx
  | cons y ys ih =>
    rcases List.mem_cons.mp hx with h | h
    · subst h
      exact le_trans (le_max_right a x) (le_foldl_max_init ys (max a x))
    · exact ih (max a y) h

lemma listMin_le {s : List ℚ} {x : ℚ} (hx : x ∈ s) : listMin s ≤ x := by
  cases s with
  | nil => cases hx
  | cons y ys =>
    rcases List.mem_cons.mp hx with h | h
    · subst h
      exact foldl_min_le_init ys x
    · exact foldl_min_le_mem ys y x h

lemma le_listMax {s : List ℚ} {x : ℚ} (hx : x ∈ s) : x ≤ listMax s := by
  cases s with
  | nil => cases hx
  | cons y ys =>
    rcases List.mem_cons.mp hx with h | h
    · subst h
      exact le_foldl_max_init ys x
    · exact le_foldl_max_mem ys y x h

lemma filterMap_id_map_some (s : List ℚ) : (s.map some).filterMap id = s := by
  induction s with
  | nil => rfl
  | cons x xs ih => simp [List.filterMap_cons, ih]

lemma npLerp_eq (a b t : ℚ) : npLerp a b t = a + (b - a) * t := by
  unfold npLerp
  split_ifs with h
  · ring
  · rfl

lemma sorted_getD_mono {v : List ℚ} (hv : List.Sorted (· ≤ ·) v) {i j : ℕ}
    (hij : i ≤ j) (hj : j < v.length) : v.getD i 0 ≤ v.getD j 0 := by
  have hi : i < v.length := lt_of_le_of_lt hij hj
  rw [List.getD_eq_getElem v 0 hi, List.getD_eq_getElem v 0 hj]
  have := hv.rel_get_of_le (a := ⟨i, hi⟩) (b := ⟨j, hj⟩) hij
  simpa using this

lemma getD_mem_of_lt {v : List ℚ} {i : ℕ} (hi : i < v.length) :
    v.getD i 0 ∈ v := by
  rw [List.getD_eq_getElem v 0 hi]
  exact List.getElem_mem hi

lemma floor_toNat_cast {h : ℚ} (h0 : 0 ≤ h) :
    (((⌊h⌋).toNat : ℕ) : ℚ) = ((⌊h⌋ : ℤ) : ℚ) := by
  exact_mod_cast congrArg (fun z : ℤ => (z : ℚ))
    (Int.toNat_of_nonneg (Int.floor_nonneg.mpr h0))

lemma ceil_toNat_lt_length {v : List ℚ} (hne : v ≠ []) {h : ℚ} (h0 : 0 ≤ h)
    (hub : h ≤ (v.length : ℚ) - 1) : (⌈h⌉).toNat < v.length := by
  have hlen : 1 ≤ v.length := List.length_pos.mpr hne
  have hc : ⌈h⌉ ≤ (v.length : ℤ) - 1 := by
    rw [Int.ceil_le]
    push_cast
    exact hub
  have hc0 : 0 ≤ ⌈h⌉ := Int.ceil_nonneg h0
  omega

lemma floor_toNat_le_ceil_toNat (h : ℚ) : (⌊h⌋).toNat ≤ (⌈h⌉).toNat := by
  have := Int.floor_le_ceil h
  omega

lemma sub_floor_toNat_nonneg {h : ℚ} (h0 : 0 ≤ h) :
    0 ≤ h - (((⌊h⌋).toNat : ℕ) : ℚ) := by
  rw [floor_toNat_cast h0]
  exact sub_nonneg.mpr (Int.floor_le h)

lemma sub_floor_toNat_lt_one {h : ℚ} (h0 : 0 ≤ h) :
    h - (((⌊h⌋).toNat : ℕ) : ℚ) < 1 := by
  rw [floor_toNat_cast h0]
  have := Int.lt_floor_add_one h
  linarith

lemma interpVal_between {v : List ℚ} (hv : List.Sorted (· ≤ ·) v)
    (hne : v ≠ []) {h : ℚ} (h0 : 0 ≤ h) (hub : h ≤ (v.length : ℚ) - 1) :
    v.getD (⌊h⌋).toNat 0 ≤ interpVal v h ∧
      interpVal v h ≤ v.getD (⌈h⌉).toNat 0 := by
  have hj := ceil_toNat_lt_length hne h0 hub
  have hab : v.getD (⌊h⌋).toNat 0 ≤ v.getD (⌈h⌉).toNat 0 :=
    sorted_getD_mono hv (floor_toNat_le_ceil_toNat h) hj
  have hg0 := sub_floor_toNat_nonneg h0
  have hg1 := sub_floor_toNat_lt_one h0
  unfold interpVal
  rw [npLerp_eq]
  constructor
  · nlinarith
  · nlinarith

lemma floor_lt_of_lt_pred {v : List ℚ} {h : ℚ}
    (hlt : h < (v.length : ℚ) - 1) : ⌊h⌋ < (v.length : ℤ) - 1 := by
  have h1 : ((⌊h⌋ : ℤ) : ℚ) ≤ h := Int.floor_le h
  have : ((⌊h⌋ : ℤ) : ℚ) < (((v.length : ℤ) - 1 : ℤ) : ℚ) := by
    push_cast
    linarith
  exact_mod_cast this

lemma floor_le_pred_of_le {v : List ℚ} {h : ℚ}
    (hub : h ≤ (v.length : ℚ) - 1) : ⌊h⌋ ≤ (v.length : ℤ) - 1 := by
  have h1 : ((⌊h⌋ : ℤ) : ℚ) ≤ h := Int.floor_le h
  have : ((⌊h⌋ : ℤ) : ℚ) ≤ (((v.length : ℤ) - 1 : ℤ) : ℚ) := by
    push_cast
    linarith
  exact_mod_cast this

lemma interpVal_mono {v : List ℚ} (hv : List.Sorted (· ≤ ·) v) (hne : v ≠ [])
    {h1 h2 : ℚ} (h10 : 0 ≤ h1) (h12 : h1 ≤ h2)
    (h2ub : h2 ≤ (v.length : ℚ) - 1) : interpVal v h1 ≤ interpVal v h2 := by
  have h20 : 0 ≤ h2 := le_trans h10 h12
  have h1ub : h1 ≤ (v.length : ℚ) - 1 := le_trans h12 h2ub
  have hfl : ⌊h1⌋ ≤ ⌊h2⌋ := Int.floor_mono h12
  rcases eq_or_lt_of_le hfl with heq | hlt
  · have hcl : ⌈h1⌉ ≤ ⌈h2⌉ := Int.ceil_mono h12
    rcases eq_or_lt_of_le hcl with hceq | hclt
    · have hab : v.getD (⌊h2⌋).toNat 0 ≤ v.getD (⌈h2⌉).toNat 0 :=
        sorted_getD_mono hv (floor_toNat_le_ceil_toNat h2)
          (ceil_toNat_lt_length hne h20 h2ub)
      unfold interpVal
      rw [npLerp_eq, npLerp_eq, heq, hceq]
      nlinarith [sub_nonneg.mpr hab]
    · have hc1 : ⌈h1⌉ = ⌊h1⌋ := by
        have hub1 : ⌈h2⌉ ≤ ⌊h2⌋ + 1 := Int.ceil_le_floor_add_one h2
        have hfc1 : ⌊h1⌋ ≤ ⌈h1⌉ := Int.floor_le_ceil h1
        omega
      have hint : ((⌊h1⌋ : ℤ) : ℚ) = h1 :=
        le_antisymm (Int.floor_le h1)
          (le_trans (Int.le_ceil h1) (by exact_mod_cast le_of_eq hc1))
      have hval1 : interpVal v h1 = v.getD (⌊h1⌋).toNat 0 := by
        unfold interpVal
        rw [npLerp_eq, floor_toNat_cast h10, hint]
        ring
      rw [hval1, heq]
      exact (interpVal_between hv hne h20 h2ub).1
  · have hub1 := (interpVal_between hv hne h10 h1ub).2
    have hlb2 := (interpVal_between hv hne h20 h2ub).1
    have hmid : v.getD (⌈h1⌉).toNat 0 ≤ v.getD (⌊h2⌋).toNat 0 := by
      apply sorted_getD_mono hv
      · have hc := Int.ceil_le_floor_add_one h1
        have hf10 : 0 ≤ ⌊h1⌋ := Int.floor_nonneg.mpr h10
        omega
      · have hlen : 1 ≤ v.length := List.length_pos.mpr hne
        have hf20 : 0 ≤ ⌊h2⌋ := Int.floor_nonneg.mpr h20
        have := floor_le_pred_of_le h2ub
        omega
    exact le_trans hub1 (le_trans hmid hlb2)

/-! Theorems for the claims. -/

/-- C3. `parse_bool` returns true on a string iff its stripped, lowercased
form is one of "1", "true", "t", "yes", "y"; every other string yields
false; non-strings coerce by native truthiness; and the five spec examples
evaluate as stated. -/
theorem C3_parse_bool :
    (∀ s : String, parseBool (.str s) = true ↔
      pyLower (pyStrip s) ∈ (["1", "true", "t", "yes", "y"] : List String)) ∧
    (∀ x : PyVal, x.isStr = false → parseBool x = pyTruthy x) ∧
    parseBool (.str "TRUE") = true ∧ parseBool (.str "no") = false ∧
    parseBool (.str "") = false ∧ parseBool (.int 1) = true ∧
    parseBool (.int 0) = false := by
  refine ⟨fun s => ?_, fun x hx => ?_, by decide, by decide, by decide, by decide, by decide⟩
  · simp [parseBool]
  · cases x <;> simp_all [parseBool, PyVal.isStr]

/-- C3 witness: the hypotheses of the non-string clause hold at the concrete
input `5`, where truthiness gives `true`. -/
theorem C3_parse_bool_witness :
    (PyVal.int 5).isStr = false ∧ parseBool (.int 5) = pyTruthy (.int 5) ∧
      parseBool (.int 5) = true :=
  ⟨by decide, C3_parse_bool.2.1 (.int 5) (by decide), by decide⟩

/-- C10. Every non-string value whose Python truthiness is true is parsed
as true by `parse_bool`; in particular the float NaN that a missing
`from_tree` cell becomes after CSV parsing is truthy, so such a row is
normalized to `served_from_reserve = true`. -/
theorem C10_nan_parses_true :
    (∀ x : PyVal, x.isStr = false → pyTruthy x = true → parseBool x = true) ∧
    pyTruthy PyVal.nan = true ∧ parseBool PyVal.nan = true := by
  refine ⟨fun x hx ht => ?_, by decide, by decide⟩
  cases x <;> simp_all [parseBool, PyVal.isStr]

/-- C10 witness: the non-string clause applied at the concrete value NaN. -/
theorem C10_nan_parses_true_witness :
    PyVal.nan.isStr = false ∧ pyTruthy PyVal.nan = true ∧
      parseBool PyVal.nan = true :=
  ⟨by decide, by decide, C10_nan_parses_true.1 .nan (by decide) (by decide)⟩

/-- C9. Depth / split_count normalization is numeric coercion, then
substitution of -1 for NaN, then integer truncation: when coercion fails
(NaN) the result is -1, when it produces a finite value `q` the result is
`q` truncated toward zero, and the result is always a defined integer
(the function is total into ℤ, so it is never NaN). -/
theorem C9_depth_normalization :
    ∀ x : PyVal,
      (toNumeric x = Option.none → normDepth x = -1) ∧
      (∀ q : ℚ, toNumeric x = some q → normDepth x = truncQ q) := by
  intro x
  constructor
  · intro h
    norm_num [normDepth, pdFillna, h, truncQ]
    exact Int.ceil_eq_iff.mpr (by norm_num)
  · intro q h
    simp [normDepth, pdFillna, h]

/-- C9 witness: at the concrete raw value NaN (a missing cell) the pipeline
yields -1. -/
theorem C9_depth_normalization_witness :
    toNumeric PyVal.nan = Option.none ∧ normDepth PyVal.nan = -1 :=
  ⟨rfl, (C9_depth_normalization .nan).1 rfl⟩

/-- C1 counterexample. On an empty collected series the summary row has
`count = 0`, but its `std` field is the number 0.0, not NaN — refuting the
claim that every statistic field is NaN for an empty group (the source sets
`res['std'] = 0.0` on the empty branch). -/
theorem C1_empty_std_is_zero_not_nan :
    (percentiles ([] : List (Option ℚ))).count = 0 ∧
    (percentiles ([] : List (Option ℚ))).std = some 0 ∧
    ((percentiles ([] : List (Option ℚ))).std).isNone = false :=
  ⟨rfl, rfl, rfl⟩

/-- C1 (amended). For every group whose collected non-missing series is
empty, `percentiles` returns a SummaryRecord with `count = 0`, every
percentile together with min, max and mean equal to NaN, and `std = 0.0`;
it is a total function, so it never raises and never omits the row. -/
theorem C1_empty_group (series : List (Option ℚ))
    (h : series.filterMap id = []) :
    (percentiles series).count = 0 ∧
    (percentiles series).p500 = Option.none ∧
    (percentiles series).p900 = Option.none ∧
    (percentiles series).p950 = Option.none ∧
    (percentiles series).p990 = Option.none ∧
    (percentiles series).p999 = Option.none ∧
    (percentiles series).min = Option.none ∧
    (percentiles series).max = Option.none ∧
    (percentiles series).mean = Option.none ∧
    (percentiles series).std = some 0 := by
  have hp : percentiles series =
      { p500 := Option.none, p900 := Option.none, p950 := Option.none
        p990 := Option.none, p999 := Option.none
        min := Option.none, max := Option.none, mean := Option.none
        std := some 0, count := 0 } := by
    unfold percentiles
    rw [h]
  rw [hp]
  exact ⟨rfl, rfl, rfl, rfl, rfl, rfl, rfl, rfl, rfl, rfl⟩

/-- C1 witness: a series consisting of one NaN cell collects to the empty
series, and the amended conclusion holds there. -/
theorem C1_empty_group_witness :
    ([Option.none] : List (Option ℚ)).filterMap id = [] ∧
    (percentiles ([Option.none] : List (Option ℚ))).count = 0 ∧
    (percentiles ([Option.none] : List (Option ℚ))).mean = Option.none ∧
    (percentiles ([Option.none] : List (Option ℚ))).std = some 0 := by
  have h := C1_empty_group [Option.none] (by simp)
  exact ⟨by simp, h.1, h.2.2.2.2.2.2.2.2.1, h.2.2.2.2.2.2.2.2.2⟩

lemma linspace01_length (n : ℕ) : (linspace01 n).length = n := by
  unfold linspace01
  split_ifs with h0 h1
  · rw [h0]
    rfl
  · rw [h1]
    rfl
  · rw [List.length_map, List.length_range]

lemma linspace01_getD (n k : ℕ) (h1 : 1 < n) (hk : k < n) :
    (linspace01 n).getD k 0 = (k : ℚ) / ((n : ℚ) - 1) := by
  unfold linspace01
  rw [if_neg (by omega), if_neg (by omega),
    List.getD_eq_getElem _ _ (by rw [List.length_map, List.length_range]; exact hk)]
  simp only [List.getElem_map, List.getElem_range]

/-- C4. The ECDF returns the non-missing values sorted ascending, paired
with an equal-length `linspace(0, 1, n)`: the k-th probability is
`k/(n-1)` when `n > 1`, the single probability is `0` when `n = 1` (no
division by zero), and both sequences are empty when `n = 0`. -/
theorem C4_ecdf (series : List (Option ℚ)) :
    List.Sorted (· ≤ ·) (ecdf series).1 ∧
    (ecdf series).1.Perm (series.filterMap id) ∧
    (ecdf series).2.length = (ecdf series).1.length ∧
    (∀ k : ℕ, 1 < (ecdf series).1.length → k < (ecdf series).1.length →
      (ecdf series).2.getD k 0 = (k : ℚ) / (((ecdf series).1.length : ℚ) - 1)) ∧
    ((ecdf series).1.length = 1 → (ecdf series).2 = [0]) ∧
    ((ecdf series).1.length = 0 → (ecdf series).1 = [] ∧ (ecdf series).2 = []) := by
  refine ⟨sortQ_sorted _, sortQ_perm _, linspace01_length _,
    fun k h1 hk => linspace01_getD _ k h1 hk,
    fun h1 => by simp [ecdf] at h1 ⊢; rw [h1]; rfl,
    fun h0 => ⟨List.length_eq_zero.mp h0, by simp [ecdf] at h0 ⊢; rw [h0]; rfl⟩⟩

/-- C4 witness: on the concrete series `[2, NaN, 1]` there are two
non-missing values, and the second probability point equals
`1/(n-1)` by the theorem. -/
theorem C4_ecdf_witness :
    1 < (ecdf [some 2, Option.none, some 1]).1.length ∧
    (ecdf [some 2, Option.none, some 1]).2.getD 1 0 =
      (1 : ℚ) / (((ecdf [some 2, Option.none, some 1]).1.length : ℚ) - 1) := by
  have hlen : (ecdf [some 2, Option.none, some 1]).1.length = 2 := by
    simp [ecdf, sortQ]
  exact ⟨by rw [hlen]; norm_num,
    (C4_ecdf _).2.2.2.1 1 (by rw [hlen]; norm_num) (by rw [hlen]; norm_num)⟩

/-- C5. The zoom step of `do_distribution_plots`: on a series with at least
one non-missing value it computes `v = quantile(zoom_q)`, retains exactly
the values `≤ v` (characterized by membership below), and sets the
presentation bound `x_max = v * 1.001`; on an empty series it returns
nothing (skip, not an error — the embedding is a total function).  In this
finite-value model the quantile of a non-empty series is always finite, so
the not-finite branch of the source is unreachable. -/
theorem C5_zoom (series : List (Option ℚ)) (zoomQ : ℚ) :
    (series.filterMap id = [] → doZoomPlots series zoomQ = Option.none) ∧
    (series.filterMap id ≠ [] →
      doZoomPlots series zoomQ =
        some ((series.filterMap id).filter
            (fun y => y ≤ seriesQuantile (series.filterMap id) zoomQ),
          some (seriesQuantile (series.filterMap id) zoomQ * (1001/1000))) ∧
      ∀ x : ℚ,
        x ∈ (series.filterMap id).filter
            (fun y => y ≤ seriesQuantile (series.filterMap id) zoomQ) ↔
          x ∈ series.filterMap id ∧
            x ≤ seriesQuantile (series.filterMap id) zoomQ) := by
  constructor
  · intro h
    unfold doZoomPlots
    rw [h]
  · intro h
    obtain ⟨x, xs, hxx⟩ : ∃ x xs, series.filterMap id = x :: xs := by
      cases hc : series.filterMap id with
      | nil => exact absurd hc h
      | cons a as => exact ⟨a, as, rfl⟩
    constructor
    · unfold doZoomPlots
      rw [hxx]
    · intro y
      simp [List.mem_filter]

/-- C5 witness: on the concrete series `[1, 2, NaN]` the zoom emits the
filtered values and the `v * 1.001` bound. -/
theorem C5_zoom_witness :
    ([some (1:ℚ), some 2, Option.none].filterMap id ≠ []) ∧
    doZoomPlots [some 1, some 2, Option.none] (99/100) =
      some (([some (1:ℚ), some 2, Option.none].filterMap id).filter
          (fun y => y ≤ seriesQuantile
            ([some (1:ℚ), some 2, Option.none].filterMap id) (99/100)),
        some (seriesQuantile
            ([some (1:ℚ), some 2, Option.none].filterMap id) (99/100) *
          (1001/1000))) :=
  ⟨by simp, ((C5_zoom _ _).2 (by simp)).1⟩

lemma sortQ_ne_nil {s : List ℚ} (hs : s ≠ []) : sortQ s ≠ [] := by
  intro hh
  apply hs
  have hp := sortQ_perm s
  rw [hh] at hp
  exact hp.symm.eq_nil

lemma sortQ_len_pred_nonneg {s : List ℚ} (hs : s ≠ []) :
    (0 : ℚ) ≤ ((sortQ s).length : ℚ) - 1 := by
  have hlen : 1 ≤ (sortQ s).length := List.length_pos.mpr (sortQ_ne_nil hs)
  have : (1 : ℚ) ≤ ((sortQ s).length : ℚ) := by exact_mod_cast hlen
  linarith

/-- C8. On every non-empty series the quantile function is monotone
non-decreasing in `q` over `[0, 1]` (hence the p50 ≤ p90 ≤ p95 ≤ p99 ≤
p99.9 chain), and every quantile lies between the minimum and the maximum
of the series. -/
theorem C8_percentile_monotone (s : List ℚ) (hs : s ≠ []) :
    (∀ q1 q2 : ℚ, 0 ≤ q1 → q1 ≤ q2 → q2 ≤ 1 →
      seriesQuantile s q1 ≤ seriesQuantile s q2) ∧
    (seriesQuantile s (1/2) ≤ seriesQuantile s (9/10) ∧
      seriesQuantile s (9/10) ≤ seriesQuantile s (95/100) ∧
      seriesQuantile s (95/100) ≤ seriesQuantile s (99/100) ∧
      seriesQuantile s (99/100) ≤ seriesQuantile s (999/1000)) ∧
    (∀ q : ℚ, 0 ≤ q → q ≤ 1 →
      listMin s ≤ seriesQuantile s q ∧ seriesQuantile s q ≤ listMax s) := by
  have hvne : sortQ s ≠ [] := sortQ_ne_nil hs
  have hc0 : (0 : ℚ) ≤ ((sortQ s).length : ℚ) - 1 := sortQ_len_pred_nonneg hs
  have hmono : ∀ q1 q2 : ℚ, 0 ≤ q1 → q1 ≤ q2 → q2 ≤ 1 →
      seriesQuantile s q1 ≤ seriesQuantile s q2 := by
    intro q1 q2 hq0 hq12 hq21
    unfold seriesQuantile quantileSorted
    apply interpVal_mono (sortQ_sorted s) hvne
    · exact mul_nonneg hq0 hc0
    · exact mul_le_mul_of_nonneg_right hq12 hc0
    · calc q2 * (((sortQ s).length : ℚ) - 1)
          ≤ 1 * (((sortQ s).length : ℚ) - 1) :=
            mul_le_mul_of_nonneg_right hq21 hc0
        _ = ((sortQ s).length : ℚ) - 1 := one_mul _
  refine ⟨hmono,
    ⟨hmono _ _ (by norm_num) (by norm_num) (by norm_num),
     hmono _ _ (by norm_num) (by norm_num) (by norm_num),
     hmono _ _ (by norm_num) (by norm_num) (by norm_num),
     hmono _ _ (by norm_num) (by norm_num) (by norm_num)⟩, ?_⟩
  intro q hq0 hq1
  have hh0 : 0 ≤ q * (((sortQ s).length : ℚ) - 1) := mul_nonneg hq0 hc0
  have hhub : q * (((sortQ s).length : ℚ) - 1) ≤ ((sortQ s).length : ℚ) - 1 := by
    calc q * (((sortQ s).length : ℚ) - 1)
        ≤ 1 * (((sortQ s).length : ℚ) - 1) := mul_le_mul_of_nonneg_right hq1 hc0
      _ = ((sortQ s).length : ℚ) - 1 := one_mul _
  have hb := interpVal_between (sortQ_sorted s) hvne hh0 hhub
  have hjlt := ceil_toNat_lt_length hvne hh0 hhub
  have hilt := lt_of_le_of_lt (floor_toNat_le_ceil_toNat _) hjlt
  constructor
  · exact le_trans (listMin_le (sortQ_mem (getD_mem_of_lt hilt))) hb.1
  · exact le_trans hb.2 (le_listMax (sortQ_mem (getD_mem_of_lt hjlt)))

/-- C8 witness: on the concrete series `[3, 1]` monotonicity applies with
`q1 = 0.5 ≤ q2 = 0.9`. -/
theorem C8_percentile_monotone_witness :
    ([(3 : ℚ), 1] ≠ []) ∧ (0 : ℚ) ≤ 1/2 ∧ ((1 : ℚ)/2 ≤ 9/10) ∧
      ((9 : ℚ)/10 ≤ 1) ∧
      seriesQuantile [3, 1] (1/2) ≤ seriesQuantile [3, 1] (9/10) :=
  ⟨by simp, by norm_num, by norm_num, by norm_num,
    (C8_percentile_monotone [3, 1] (by simp)).1 (1/2) (9/10)
      (by norm_num) (by norm_num) (by norm_num)⟩

lemma seriesQuantile_eq_specLinear (s : List ℚ) (hs : s ≠ []) {q : ℚ}
    (h0 : 0 ≤ q) (h1 : q ≤ 1) :
    seriesQuantile s q = specLinearQuantile s q := by
  have hvne : sortQ s ≠ [] := sortQ_ne_nil hs
  have hc0 : (0 : ℚ) ≤ ((sortQ s).length : ℚ) - 1 := sortQ_len_pred_nonneg hs
  simp only [seriesQuantile, quantileSorted, specLinearQuantile, interpVal]
  set v := sortQ s with hvdef
  set h := q * ((v.length : ℚ) - 1) with hhdef
  have hh0 : 0 ≤ h := mul_nonneg h0 hc0
  have hhub : h ≤ (v.length : ℚ) - 1 := by
    rw [hhdef]
    calc q * ((v.length : ℚ) - 1)
        ≤ 1 * ((v.length : ℚ) - 1) := mul_le_mul_of_nonneg_right h1 hc0
      _ = (v.length : ℚ) - 1 := one_mul _
  by_cases hint : ((⌊h⌋ : ℤ) : ℚ) = h
  · have hceil : ⌈h⌉ = ⌊h⌋ := by
      conv_lhs => rw [← hint]
      exact Int.ceil_intCast _
    rw [hceil, npLerp_eq, floor_toNat_cast hh0, hint]
    ring
  · have hceil : ⌈h⌉ = ⌊h⌋ + 1 := by
      have hle := Int.ceil_le_floor_add_one h
      have hgt : ⌊h⌋ < ⌈h⌉ := by
        by_contra hcon
        push_neg at hcon
        have hle2 : h ≤ ((⌊h⌋ : ℤ) : ℚ) :=
          le_trans (Int.le_ceil h) (by exact_mod_cast hcon)
        have hfle : ((⌊h⌋ : ℤ) : ℚ) ≤ h := Int.floor_le h
        exact hint (le_antisymm hfle hle2)
      omega
    have hlt : h < (v.length : ℚ) - 1 := by
      rcases lt_or_eq_of_le hhub with hx | hx
      · exact hx
      · exfalso
        apply hint
        rw [hx]
        have hcast : ((v.length : ℚ) - 1) = (((v.length : ℤ) - 1 : ℤ) : ℚ) := by
          push_cast
          ring
        rw [hcast, Int.floor_intCast]
    have hf0 : 0 ≤ ⌊h⌋ := Int.floor_nonneg.mpr hh0
    have hkc : (⌈h⌉).toNat = (⌊h⌋).toNat + 1 := by omega
    have hfl : ⌊h⌋ < (v.length : ℤ) - 1 := floor_lt_of_lt_pred hlt
    have hkub : (⌊h⌋).toNat + 1 ≤ v.length - 1 := by omega
    have hmin : Nat.min ((⌊h⌋).toNat + 1) (v.length - 1) = (⌊h⌋).toNat + 1 :=
      Nat.min_eq_left hkub
    rw [hkc, hmin, npLerp_eq]
    ring

/-- C6. For every non-empty series, each of the five reported percentiles
equals linear interpolation between consecutive order statistics at
fractional rank `q·(n-1)`, the formula written from the spec as
`specLinearQuantile`. -/
theorem C6_percentiles_linear_method (s : List ℚ) (hs : s ≠ []) :
    (percentiles (s.map some)).p500 = some (specLinearQuantile s (1/2)) ∧
    (percentiles (s.map some)).p900 = some (specLinearQuantile s (9/10)) ∧
    (percentiles (s.map some)).p950 = some (specLinearQuantile s (95/100)) ∧
    (percentiles (s.map some)).p990 = some (specLinearQuantile s (99/100)) ∧
    (percentiles (s.map some)).p999 = some (specLinearQuantile s (999/1000)) := by
  obtain ⟨x, xs, rfl⟩ : ∃ x xs, s = x :: xs := by
    cases s with
    | nil => exact absurd rfl hs
    | cons a as => exact ⟨a, as, rfl⟩
  have h1 : ((x :: xs).map some).filterMap id = x :: xs := filterMap_id_map_some _
  refine ⟨?_, ?_, ?_, ?_, ?_⟩ <;>
    (unfold percentiles; rw [h1];
     exact congrArg some (seriesQuantile_eq_specLinear _ (List.cons_ne_nil x xs)
       (by norm_num) (by norm_num)))

/-- C6 witness: the refinement instantiated on the concrete series
`[1, 2]` at `q = 0.5`. -/
theorem C6_percentiles_linear_method_witness :
    ([(1 : ℚ), 2] ≠ []) ∧
    (percentiles ([(1 : ℚ), 2].map some)).p500 =
      some (specLinearQuantile [1, 2] (1/2)) :=
  ⟨by simp, (C6_percentiles_linear_method [1, 2] (by simp)).1⟩

lemma besselVarR_nonneg (s : List ℚ) (hn : 1 < s.length) : 0 ≤ besselVarR s := by
  unfold besselVarR
  apply div_nonneg
  · apply List.sum_nonneg
    intro x hx
    obtain ⟨y, _, rfl⟩ := List.mem_map.mp hx
    positivity
  · have : (1 : ℝ) < (s.length : ℝ) := by exact_mod_cast hn
    linarith

/-- C7. For every non-empty series, when `n > 1` the reported `std` is the
non-negative real whose square is the Bessel-corrected sample variance
(sum of squared deviations from the mean divided by `n - 1`), and when
`n = 1` the reported `std` is exactly 0.0 rather than NaN. -/
theorem C7_std_bessel (s : List ℚ) (hs : s ≠ []) :
    (1 < s.length →
      ∀ r : ℝ, (percentiles (s.map some)).std = some r →
        0 ≤ r ∧
        r ^ 2 = ((s.map (fun x : ℚ =>
          ((x : ℝ) - ((meanQ s : ℚ) : ℝ)) ^ 2)).sum) / ((s.length : ℝ) - 1)) ∧
    (s.length = 1 → (percentiles (s.map some)).std = some 0) := by
  obtain ⟨x, xs, rfl⟩ : ∃ x xs, s = x :: xs := by
    cases s with
    | nil => exact absurd rfl hs
    | cons a as => exact ⟨a, as, rfl⟩
  have h1 : ((x :: xs).map some).filterMap id = x :: xs := filterMap_id_map_some _
  have hstd : (percentiles ((x :: xs).map some)).std =
      some (if 1 < (x :: xs).length then Real.sqrt (besselVarR (x :: xs)) else 0) := by
    unfold percentiles
    rw [h1]
  constructor
  · intro hn r hr
    rw [hstd, if_pos hn] at hr
    obtain rfl : Real.sqrt (besselVarR (x :: xs)) = r := Option.some.inj hr
    refine ⟨Real.sqrt_nonneg _, ?_⟩
    rw [Real.sq_sqrt (besselVarR_nonneg _ hn)]
    unfold besselVarR
    rfl
  · intro hn
    rw [hstd, if_neg (by omega)]

/-- C7 witness: on the concrete series `[1, 3]` the reported std is the
square root of the sample variance, hence non-negative with the stated
square. -/
theorem C7_std_bessel_witness :
    1 < ([(1 : ℚ), 3]).length ∧
    (percentiles ([(1 : ℚ), 3].map some)).std =
      some (Real.sqrt (besselVarR [1, 3])) ∧
    0 ≤ Real.sqrt (besselVarR [1, 3]) ∧
    Real.sqrt (besselVarR [1, 3]) ^ 2 =
      (([(1 : ℚ), 3].map (fun x : ℚ =>
        ((x : ℝ) - ((meanQ [(1 : ℚ), 3] : ℚ) : ℝ)) ^ 2)).sum) /
        ((([(1 : ℚ), 3]).length : ℝ) - 1) := by
  have hstd : (percentiles ([(1 : ℚ), 3].map some)).std =
      some (Real.sqrt (besselVarR [1, 3])) := by
    unfold percentiles
    rw [filterMap_id_map_some]
    norm_num
  have h := (C7_std_bessel [1, 3] (by simp)).1 (by norm_num) _ hstd
  exact ⟨by norm_num, hstd, h.1, h.2⟩

lemma vec3_zero (a b c : ℚ) : ![a, b, c] 0 = a := rfl

lemma vec3_one (a b c : ℚ) : ![a, b, c] 1 = b := rfl

lemma vec3_two (a b c : ℚ) : ![a, b, c] 2 = c := rfl

lemma pairRows_eq_complete (i j : Fin 3) (rows : List (Fin 3 → Option ℚ))
    (hcomp : ∀ r ∈ rows, (r 0).isSome ∧ (r 1).isSome ∧ (r 2).isSome) :
    pairRows rows i j = (completeRows rows).map (fun r => (r i, r j)) := by
  induction rows with
  | nil => rfl
  | cons r rs ih =>
    obtain ⟨h0, h1, h2⟩ := hcomp r (List.mem_cons_self r rs)
    obtain ⟨a, ha⟩ := Option.isSome_iff_exists.mp h0
    obtain ⟨b, hb⟩ := Option.isSome_iff_exists.mp h1
    obtain ⟨c, hc⟩ := Option.isSome_iff_exists.mp h2
    have hfun : ∀ k : Fin 3, r k = some (![a, b, c] k) := by
      intro k
      fin_cases k
      · simpa using ha
      · simpa using hb
      · simpa using hc
    have hrest := ih (fun y hy => hcomp y (List.mem_cons_of_mem r hy))
    simp only [pairRows, completeRows, List.filterMap_cons, hfun 0, hfun 1, hfun 2,
      hfun i, hfun j, List.map_cons, vec3_zero, vec3_one, vec3_two] at hrest ⊢
    rw [hrest]

/-- C2 counterexample: on a concrete three-column table with a NaN only in
the third column, the coefficient that `df.corr` produces for the first two
columns (computed over the rows where just those two columns are
non-missing) differs from the coefficient computed over the row-wise
complete-case row set, refuting the claim that every coefficient uses the
complete-case rows. -/
theorem C2_pairwise_not_complete_case :
    dfCorrEntry
        [![some 0, some 0, Option.none], ![some 1, some 0, some 0],
         ![some 0, some 1, some 0], ![some 1, some 1, some 0]] 0 1 = some 0 ∧
    specCompleteCaseCorr
        [![some 0, some 0, Option.none], ![some 1, some 0, some 0],
         ![some 0, some 1, some 0], ![some 1, some 1, some 0]] 0 1 =
      some (-(1/4)) ∧
    decide (dfCorrEntry
        [![some 0, some 0, Option.none], ![some 1, some 0, some 0],
         ![some 0, some 1, some 0], ![some 1, some 1, some 0]] 0 1 =
      specCompleteCaseCorr
        [![some 0, some 0, Option.none], ![some 1, some 0, some 0],
         ![some 0, some 1, some 0], ![some 1, some 1, some 0]] 0 1) = false := by
  have hpair : pairRows
      [![some 0, some 0, Option.none], ![some 1, some 0, some 0],
       ![some 0, some 1, some 0], ![some 1, some 1, some 0]] 0 1 =
      [((0 : ℚ), (0 : ℚ)), (1, 0), (0, 1), (1, 1)] := by
    simp [pairRows, Matrix.cons_val_zero, Matrix.cons_val_one, Matrix.head_cons]
  have hcomplete : completeRows
      [![some 0, some 0, Option.none], ![some 1, some 0, some 0],
       ![some 0, some 1, some 0], ![some 1, some 1, some 0]] =
      [![(1 : ℚ), 0, 0], ![0, 1, 0], ![1, 1, 0]] := by
    simp [completeRows, Matrix.cons_val_zero, Matrix.cons_val_one, Matrix.head_cons]
  have hdf : dfCorrEntry
      [![some 0, some 0, Option.none], ![some 1, some 0, some 0],
       ![some 0, some 1, some 0], ![some 1, some 1, some 0]] 0 1 = some 0 := by
    rw [dfCorrEntry, hpair]
    norm_num [pearson2]
  have hcc : specCompleteCaseCorr
      [![some 0, some 0, Option.none], ![some 1, some 0, some 0],
       ![some 0, some 1, some 0], ![some 1, some 1, some 0]] 0 1 =
      some (-(1/4)) := by
    rw [specCompleteCaseCorr, hcomplete]
    have habs : |(1 : ℚ)/3| = 1/3 := abs_of_nonneg (by norm_num)
    norm_num [pearson2, Matrix.cons_val_zero, Matrix.cons_val_one, Matrix.head_cons,
      habs]
  refine ⟨hdf, hcc, ?_⟩
  rw [hdf, hcc]
  apply decide_eq_false
  intro hcon
  have := Option.some.inj hcon
  norm_num at this

/-- C2 (amended). Each coefficient of the `df.corr` matrix is computed over
the rows where the two fields of that pair are both non-missing
(pairwise-complete deletion); when no selected field is missing in any row,
this coincides with row-wise complete-case analysis. -/
theorem C2_corr_pairwise (rows : List (Fin 3 → Option ℚ)) (i j : Fin 3)
    (hcomp : ∀ r ∈ rows, (r 0).isSome ∧ (r 1).isSome ∧ (r 2).isSome) :
    dfCorrEntry rows i j = specCompleteCaseCorr rows i j := by
  unfold dfCorrEntry specCompleteCaseCorr
  rw [pairRows_eq_complete i j rows hcomp]

/-- C2 witness: on a concrete fully-observed table the pairwise and
complete-case coefficients agree. -/
theorem C2_corr_pairwise_witness :
    ([![some (1 : ℚ), some 0, some 2], ![some 0, some 1, some 3],
        ![some 1, some 1, some 4]].all
      (fun r => (r 0).isSome && (r 1).isSome && (r 2).isSome)) = true ∧
    dfCorrEntry
        [![some (1 : ℚ), some 0, some 2], ![some 0, some 1, some 3],
         ![some 1, some 1, some 4]] 0 1 =
      specCompleteCaseCorr
        [![some (1 : ℚ), some 0, some 2], ![some 0, some 1, some 3],
         ![some 1, some 1, some 4]] 0 1 :=
  ⟨by decide, C2_corr_pairwise _ 0 1 (by decide)⟩

end Zag
